import Mathlib

set_option maxRecDepth 10000

namespace Thinshell

/-! Shallow embedding of the vex-regularization core
(senslist.py and vexshape.py).

Bit-vector values of width w are embedded as natural numbers below 2 ^ w.
Bit-string values (the bitstring.Bits objects used for masks, field-spec
enumeration results and shape-catalog keys) are embedded as List Bool,
most significant bit first, matching the Bits indexing convention where
index 0 is the leftmost (most significant) bit. -/

/-- The unsigned integer read off a bit list, most significant bit first
(the uint property of a bitstring). -/
def bitsToNat (bs : List Bool) : Nat :=
  bs.foldl (fun acc b => 2 * acc + (if b then 1 else 0)) 0

/-- The w-bit pattern of a number, most significant bit first
(Bits with uint=n and length=w). -/
def natToBits : Nat → Nat → List Bool
  | 0, _ => []
  | w + 1, n => n.testBit w :: natToBits w n

theorem natToBits_length (w n : Nat) : (natToBits w n).length = w := by
  induction w generalizing n with
  | zero => rfl
  | succ w ih => simp [natToBits, ih]

theorem bitsToNat_foldl (bs : List Bool) (acc : Nat) :
    bs.foldl (fun a b => 2 * a + (if b then 1 else 0)) acc =
      acc * 2 ^ bs.length + bitsToNat bs := by
  induction bs generalizing acc with
  | nil => simp [bitsToNat]
  | cons b bs ih =>
    rw [List.foldl_cons, ih, show bitsToNat (b :: bs) = (b :: bs).foldl
      (fun a c => 2 * a + (if c then 1 else 0)) 0 from rfl, List.foldl_cons, ih,
      List.length_cons]
    ring

theorem bitsToNat_cons (b : Bool) (bs : List Bool) :
    bitsToNat (b :: bs) = (if b then 1 else 0) * 2 ^ bs.length + bitsToNat bs := by
  rw [show bitsToNat (b :: bs) = (b :: bs).foldl
    (fun a c => 2 * a + (if c then 1 else 0)) 0 from rfl, List.foldl_cons,
    bitsToNat_foldl]
  ring_nf

theorem bitsToNat_lt (bs : List Bool) : bitsToNat bs < 2 ^ bs.length := by
  induction bs with
  | nil => simp [bitsToNat]
  | cons b bs ih =>
    rw [bitsToNat_cons]
    simp only [List.length_cons, pow_succ]
    cases b <;> simp <;> omega

theorem bitsToNat_natToBits (w n : Nat) : bitsToNat (natToBits w n) = n % 2 ^ w := by
  induction w generalizing n with
  | zero => simp [natToBits, bitsToNat, Nat.mod_one]
  | succ w ih =>
    rw [natToBits, bitsToNat_cons, natToBits_length, ih]
    have h1 : n % 2 ^ (w + 1) = n % 2 ^ w + 2 ^ w * (n / 2 ^ w % 2) := by
      rw [pow_succ, Nat.mod_mul]
    rw [h1, Nat.testBit_to_div_mod]
    rcases Nat.mod_two_eq_zero_or_one (n / 2 ^ w) with h | h
    · simp [h]
    · simp [h]
      ring

theorem natToBits_congr {w n m : Nat} (h : ∀ i < w, n.testBit i = m.testBit i) :
    natToBits w n = natToBits w m := by
  induction w with
  | zero => rfl
  | succ w ih =>
    rw [natToBits, natToBits, h w (Nat.lt_succ_self w),
      ih (fun i hi => h i (Nat.lt_succ_of_lt hi))]

theorem natToBits_mod (w n : Nat) : natToBits w (n % 2 ^ w) = natToBits w n := by
  apply natToBits_congr
  intro i hi
  simp [Nat.testBit_mod_two_pow, hi]

theorem natToBits_bitsToNat (bs : List Bool) : natToBits bs.length (bitsToNat bs) = bs := by
  induction bs with
  | nil => rfl
  | cons b bs ih =>
    rw [List.length_cons, natToBits, bitsToNat_cons]
    have hlt := bitsToNat_lt bs
    have hmul : (if b then 1 else 0) * 2 ^ bs.length + bitsToNat bs
        = 2 ^ bs.length * (if b then 1 else 0) + bitsToNat bs := by ring_nf
    rw [List.cons_eq_cons]
    constructor
    · rw [hmul, Nat.testBit_mul_pow_two_add _ hlt]
      cases b <;> simp
    · have hmod : ((if b then 1 else 0) * 2 ^ bs.length + bitsToNat bs) % 2 ^ bs.length
          = bitsToNat bs := by
        cases b <;> simp [Nat.mod_eq_of_lt hlt, Nat.add_comm, Nat.add_mul_mod_self_right]
      rw [← natToBits_mod, hmod, ih]

/-! Embedding of senslist.py. -/

/-- bitsExcept from senslist.py: bv with the j-th bit removed, where j = 0 is
the least significant bit and bv is a bit-vector of width w. Z3 Extract(hi, lo, bv)
is embedded as (bv >>> lo) % 2 ^ (hi - lo + 1), and Concat of a high part with a
low part of width k as hi * 2 ^ k + lo. -/
def bitsExcept (w : Nat) (bv : Nat) (j : Nat) : Nat :=
  if j = 0 then (bv >>> 1) % 2 ^ (w - 1)
  else if j = w - 1 then bv % 2 ^ (w - 1)
  else ((bv >>> (j + 1)) % 2 ^ (w - 1 - j)) * 2 ^ j + bv % 2 ^ j

theorem shiftRight_lt_pow {v w k : Nat} (hv : v < 2 ^ w) (hk : k ≤ w) :
    v >>> k < 2 ^ (w - k) := by
  rw [Nat.shiftRight_eq_div_pow]
  apply Nat.div_lt_of_lt_mul
  calc v < 2 ^ w := hv
    _ = 2 ^ k * 2 ^ (w - k) := by rw [← pow_add]; congr 1; omega

theorem pack_eq_iff {A1 A2 B1 B2 i : Nat} (hB1 : B1 < 2 ^ i) (hB2 : B2 < 2 ^ i) :
    A1 * 2 ^ i + B1 = A2 * 2 ^ i + B2 ↔ A1 = A2 ∧ B1 = B2 := by
  constructor
  · intro h
    have hd := congrArg (· / 2 ^ i) h
    have hm := congrArg (· % 2 ^ i) h
    simp only [Nat.mul_comm _ (2 ^ i)] at hd hm
    rw [Nat.mul_add_div (Nat.two_pow_pos i), Nat.mul_add_div (Nat.two_pow_pos i),
      Nat.div_eq_of_lt hB1, Nat.div_eq_of_lt hB2] at hd
    rw [Nat.mul_add_mod, Nat.mul_add_mod, Nat.mod_eq_of_lt hB1, Nat.mod_eq_of_lt hB2] at hm
    exact ⟨hd, hm⟩
  · rintro ⟨rfl, rfl⟩; rfl

/-- bitsExcept discards exactly bit j: for values below 2 ^ w, equality of the
two extracts amounts to equality of the bits above j and of the bits below j. -/
theorem bitsExcept_eq_iff {w i v1 v2 : Nat} (h1 : v1 < 2 ^ w) (h2 : v2 < 2 ^ w)
    (hi : i < w) :
    bitsExcept w v1 i = bitsExcept w v2 i ↔
      (v1 >>> (i + 1) = v2 >>> (i + 1) ∧ v1 % 2 ^ i = v2 % 2 ^ i) := by
  unfold bitsExcept
  by_cases h0 : i = 0
  · subst h0
    have e1 : v1 >>> 1 % 2 ^ (w - 1) = v1 >>> 1 :=
      Nat.mod_eq_of_lt (shiftRight_lt_pow h1 (by omega))
    have e2 : v2 >>> 1 % 2 ^ (w - 1) = v2 >>> 1 :=
      Nat.mod_eq_of_lt (shiftRight_lt_pow h2 (by omega))
    simp [e1, e2, Nat.mod_one]
  · by_cases hw : i = w - 1
    · have hzero1 : v1 >>> (i + 1) = 0 := by
        rw [Nat.shiftRight_eq_div_pow]
        apply Nat.div_eq_of_lt
        calc v1 < 2 ^ w := h1
          _ ≤ 2 ^ (i + 1) := Nat.pow_le_pow_right (by omega) (by omega)
      have hzero2 : v2 >>> (i + 1) = 0 := by
        rw [Nat.shiftRight_eq_div_pow]
        apply Nat.div_eq_of_lt
        calc v2 < 2 ^ w := h2
          _ ≤ 2 ^ (i + 1) := Nat.pow_le_pow_right (by omega) (by omega)
      have hpow : 2 ^ (w - 1) = 2 ^ i := by rw [hw]
      rw [if_neg h0, if_pos hw, if_neg h0, if_pos hw, hzero1, hzero2, hpow]
      simp
    · have grow1 : v1 >>> (i + 1) % 2 ^ (w - 1 - i) = v1 >>> (i + 1) := by
        apply Nat.mod_eq_of_lt
        have h := shiftRight_lt_pow h1 (k := i + 1) (by omega)
        have heq : w - (i + 1) = w - 1 - i := by omega
        rwa [heq] at h
      have grow2 : v2 >>> (i + 1) % 2 ^ (w - 1 - i) = v2 >>> (i + 1) := by
        apply Nat.mod_eq_of_lt
        have h := shiftRight_lt_pow h2 (k := i + 1) (by omega)
        have heq : w - (i + 1) = w - 1 - i := by omega
        rwa [heq] at h
      rw [if_neg h0, if_neg hw, if_neg h0, if_neg hw, grow1, grow2]
      exact pack_eq_iff (Nat.mod_lt _ (Nat.two_pow_pos i)) (Nat.mod_lt _ (Nat.two_pow_pos i))

/-- Equality of the bits above position i together with equality of the bits
below position i is the same as agreement on every bit other than i. -/
theorem highlow_eq_iff (i v1 v2 : Nat) :
    (v1 >>> (i + 1) = v2 >>> (i + 1) ∧ v1 % 2 ^ i = v2 % 2 ^ i) ↔
      ∀ j, j ≠ i → v1.testBit j = v2.testBit j := by
  constructor
  · rintro ⟨hh, hl⟩ j hj
    rcases Nat.lt_or_ge j i with hlt | hge
    · have := congrArg (fun x => x.testBit j) hl
      simpa [Nat.testBit_mod_two_pow, hlt] using this
    · have hgt : i < j := by omega
      have := congrArg (fun x => x.testBit (j - i - 1)) hh
      simp only [Nat.testBit_shiftRight] at this
      have harith : i + 1 + (j - i - 1) = j := by omega
      rwa [harith] at this
  · intro h
    constructor
    · apply Nat.eq_of_testBit_eq
      intro k
      simp only [Nat.testBit_shiftRight]
      exact h (i + 1 + k) (by omega)
    · apply Nat.eq_of_testBit_eq
      intro k
      simp only [Nat.testBit_mod_two_pow]
      by_cases hk : k < i
      · simp [hk, h k (by omega)]
      · simp [hk]

/-- The SensitivityList of senslist.py: an ordered list of per-bit tags,
index 0 being the least significant bit.
The character x marks an irrelevant bit, the character ! a significant
(relevant) bit and the character ? a still-unknown bit. -/
structure SensitivityList where
  slist : List Char

/-- A fresh SensitivityList of the given width: every tag unknown
(the SensitivityList constructor). -/
def SensitivityList.init (width : Nat) : SensitivityList :=
  ⟨List.replicate width '?'⟩

/-- probeIrrelevant from senslist.py. The Z3 query asserts the fully enumerated
table P over all width-bit points together with the negation of
Implies(P[v1] != P[v2], j1 != j2) for opaque width-bit v1, v2, where
j1, j2 drop bit bitPosition; it reports irrelevant exactly when that negation
is unsatisfiable, i.e. when the implication holds for all width-bit values. -/
def probeIrrelevant (width : Nat) (p : Nat → Int) (bitPosition : Nat) : Bool :=
  decide (∀ v1 < 2 ^ width, ∀ v2 < 2 ^ width, p v1 ≠ p v2 →
    bitsExcept width v1 bitPosition ≠ bitsExcept width v2 bitPosition)

/-- The tag guess1 writes for bit i: x when the probe reports irrelevant,
otherwise !. -/
def guessLetter (width : Nat) (p : Nat → Int) (i : Nat) : Char :=
  if probeIrrelevant width p i then 'x' else '!'

theorem count_set_lt {l : List Char} {i : Nat} (hi : i < l.length)
    (hq : l[i] = '?') {c : Char} (hc : c ≠ '?') :
    (l.set i c).count '?' < l.count '?' := by
  induction l generalizing i with
  | nil => simp at hi
  | cons a l ih =>
    cases i with
    | zero =>
      simp only [List.getElem_cons_zero] at hq
      subst hq
      simp only [List.set_cons_zero, List.count_cons]
      have : (c == '?') = false := by simpa using hc
      simp [this]
    | succ i =>
      simp only [List.getElem_cons_succ] at hq
      simp only [List.set_cons_succ, List.count_cons]
      have := ih (by simpa using Nat.lt_of_succ_lt_succ hi) hq
      omega

/-- The body of the guess1 recursion from senslist.py: find the first
still-unknown tag, probe it, record the verdict and recurse until no
unknown tag is left. The source recursion terminates because every step
resolves one unknown tag; the embedding carries that measure as a
structural fuel argument (the remaining number of unknown tags), so that
the function stays kernel-evaluable. -/
def guess1F (width : Nat) (p : Nat → Int) : List Char → Nat → List Char
  | slist, 0 => slist
  | slist, fuel + 1 =>
    match slist.findIdx? (fun c => c = '?') with
    | none => slist
    | some i => guess1F width p (slist.set i (guessLetter width p i)) fuel

/-- guess1 from senslist.py, entered with enough fuel to resolve every
unknown tag. -/
def guess1 (width : Nat) (p : Nat → Int) (slist : List Char) : List Char :=
  guess1F width p slist (slist.count '?')

/-- guess from senslist.py: run the resolution loop guess1 over the table p,
with width the length of the tag list. -/
def SensitivityList.guess (sl : SensitivityList) (p : Nat → Int) : SensitivityList :=
  ⟨guess1 sl.slist.length p sl.slist⟩

/-- entropy from senslist.py: the number of significant tags. -/
def SensitivityList.entropy (sl : SensitivityList) : Nat :=
  sl.slist.count '!'

/-- isInsensitive from senslist.py. -/
def SensitivityList.isInsensitive (sl : SensitivityList) : Bool :=
  sl.entropy == 0

theorem guess1F_length (width : Nat) (p : Nat → Int) :
    ∀ (fuel : Nat) (l : List Char), l.count '?' ≤ fuel →
      (guess1F width p l fuel).length = l.length := by
  intro fuel
  induction fuel with
  | zero => intro l hl; rfl
  | succ fuel ih =>
    intro l hl
    rw [guess1F]
    split
    · rfl
    · next i hfind =>
      obtain ⟨hlen, hp, -⟩ := List.findIdx?_eq_some_iff_getElem.mp hfind
      have hdec := count_set_lt hlen (by simpa using hp)
        (c := guessLetter width p i) (by unfold guessLetter; split <;> decide)
      rw [ih _ (by omega), List.length_set]

theorem guess1F_preserves (width : Nat) (p : Nat → Int) :
    ∀ (fuel : Nat) (l : List Char), l.count '?' ≤ fuel →
      ∀ (i : Nat) (c : Char), l[i]? = some c → c ≠ '?' →
        (guess1F width p l fuel)[i]? = some c := by
  intro fuel
  induction fuel with
  | zero => intro l hl i c hi hc; exact hi
  | succ fuel ih =>
    intro l hl i c hi hc
    rw [guess1F]
    split
    · exact hi
    · next k hfind =>
      obtain ⟨hlen, hp, -⟩ := List.findIdx?_eq_some_iff_getElem.mp hfind
      have hdec := count_set_lt hlen (by simpa using hp)
        (c := guessLetter width p k) (by unfold guessLetter; split <;> decide)
      apply ih _ (by omega)
      · have hik : i ≠ k := by
          intro heq
          subst heq
          have : l[i] = '?' := by simpa using hp
          rw [List.getElem?_eq_getElem hlen, this] at hi
          exact hc (by simpa using hi.symm)
        rwa [List.getElem?_set_ne (Ne.symm hik)]
      · exact hc

theorem guess1F_no_unknown (width : Nat) (p : Nat → Int) :
    ∀ (fuel : Nat) (l : List Char), l.count '?' ≤ fuel →
      '?' ∉ guess1F width p l fuel := by
  intro fuel
  induction fuel with
  | zero =>
    intro l hl hmem
    have hmem2 : '?' ∈ l := hmem
    have := List.count_pos_iff.mpr hmem2
    omega
  | succ fuel ih =>
    intro l hl
    rw [guess1F]
    split
    · next hfind =>
      rw [List.findIdx?_eq_none_iff] at hfind
      intro hmem
      simpa using hfind _ hmem
    · next k hfind =>
      obtain ⟨hlen, hp, -⟩ := List.findIdx?_eq_some_iff_getElem.mp hfind
      have hdec := count_set_lt hlen (by simpa using hp)
        (c := guessLetter width p k) (by unfold guessLetter; split <;> decide)
      exact ih _ (by omega)

theorem guess1F_resolves (width : Nat) (p : Nat → Int) :
    ∀ (fuel : Nat) (l : List Char), l.count '?' ≤ fuel →
      (∀ (j : Nat) (c : Char), l[j]? = some c → c ≠ '?' → c = guessLetter width p j) →
      ∀ i, i < l.length → (guess1F width p l fuel)[i]? = some (guessLetter width p i) := by
  intro fuel
  induction fuel with
  | zero =>
    intro l hl hgood i hi
    have hcount : l.count '?' = 0 := by omega
    have hget : l[i]? = some l[i] := List.getElem?_eq_getElem hi
    have hne : l[i] ≠ '?' := by
      intro hq
      have hmem : '?' ∈ l := hq ▸ List.getElem_mem hi
      have := List.count_pos_iff.mpr hmem
      omega
    rw [show guess1F width p l 0 = l from rfl, hget, hgood i _ hget hne]
  | succ fuel ih =>
    intro l hl hgood i hi
    rw [guess1F]
    split
    · next hfind =>
      rw [List.findIdx?_eq_none_iff] at hfind
      have hget : l[i]? = some l[i] := List.getElem?_eq_getElem hi
      have hne : l[i] ≠ '?' := by simpa using hfind _ (List.getElem_mem hi)
      rw [hget, hgood i _ hget hne]
    · next k hfind =>
      obtain ⟨hlen, hp, -⟩ := List.findIdx?_eq_some_iff_getElem.mp hfind
      have hdec := count_set_lt hlen (by simpa using hp)
        (c := guessLetter width p k) (by unfold guessLetter; split <;> decide)
      apply ih _ (by omega)
      · intro j c hj hc
        by_cases hjk : j = k
        · subst hjk
          rw [List.getElem?_set_self hlen] at hj
          injection hj with hj
          exact hj.symm
        · rw [List.getElem?_set_ne (Ne.symm hjk)] at hj
          exact hgood j c hj hc
      · rwa [List.length_set]

theorem guess1_length (width : Nat) (p : Nat → Int) (l : List Char) :
    (guess1 width p l).length = l.length :=
  guess1F_length width p _ l (Nat.le_refl _)

theorem guess1_preserves (width : Nat) (p : Nat → Int) (l : List Char)
    (i : Nat) (c : Char) (hi : l[i]? = some c) (hc : c ≠ '?') :
    (guess1 width p l)[i]? = some c :=
  guess1F_preserves width p _ l (Nat.le_refl _) i c hi hc

theorem guess1_no_unknown (width : Nat) (p : Nat → Int) (l : List Char) :
    '?' ∉ guess1 width p l :=
  guess1F_no_unknown width p _ l (Nat.le_refl _)

/-- The tag list produced by guess on a fresh width-wide SensitivityList is
fully resolved, with the bit-i tag exactly the verdict of the bit-i probe. -/
theorem guess_char (width : Nat) (p : Nat → Int) (i : Nat) (hi : i < width) :
    ((SensitivityList.init width).guess p).slist[i]? =
      some (guessLetter width p i) := by
  have hgood : ∀ (j : Nat) (c : Char), (List.replicate width '?')[j]? = some c →
      c ≠ '?' → c = guessLetter width p j := by
    intro j c hj hc
    rw [List.getElem?_replicate] at hj
    split at hj
    · injection hj with hj
      exact absurd hj.symm hc
    · exact absurd hj (by simp)
  unfold SensitivityList.guess SensitivityList.init guess1
  simp only [List.length_replicate]
  exact guess1F_resolves width p _ _ (Nat.le_refl _) hgood i (by simpa using hi)

/-- Ground truth in the spec's words: bit i is irrelevant for the total table p
over width-bit encodings when every pair of encodings that agree on all bits
except possibly bit i is mapped by p to the same shape. -/
def specIrrelevant (width : Nat) (p : Nat → Int) (i : Nat) : Prop :=
  ∀ v1 < 2 ^ width, ∀ v2 < 2 ^ width,
    (∀ j, j ≠ i → v1.testBit j = v2.testBit j) → p v1 = p v2

theorem probeIrrelevant_iff_specIrrelevant {width : Nat} (p : Nat → Int) {i : Nat}
    (hi : i < width) :
    probeIrrelevant width p i = true ↔ specIrrelevant width p i := by
  unfold probeIrrelevant specIrrelevant
  rw [decide_eq_true_iff]
  constructor
  · intro h v1 h1 v2 h2 hagree
    by_contra hne
    exact (h v1 h1 v2 h2 hne)
      (((bitsExcept_eq_iff h1 h2 hi).trans (highlow_eq_iff i v1 v2)).mpr hagree)
  · intro h v1 h1 v2 h2 hne hbe
    exact hne (h v1 h1 v2 h2
      (((bitsExcept_eq_iff h1 h2 hi).trans (highlow_eq_iff i v1 v2)).mp hbe))

/-- C1: for every total function p over width-bit encodings and every bit
position i, the SensitivityList produced by guess tags position i as
irrelevant (the tag x) exactly when every pair of encodings agreeing on all
bits except possibly bit i has the same shape under p, and tags it as
relevant (the tag !) otherwise. -/
theorem C1_guess_matches_ground_truth (width : Nat) (p : Nat → Int) (i : Nat)
    (hi : i < width) :
    (((SensitivityList.init width).guess p).slist[i]? = some 'x' ↔
      specIrrelevant width p i) ∧
    (((SensitivityList.init width).guess p).slist[i]? = some '!' ↔
      ¬ specIrrelevant width p i) := by
  have hchar := guess_char width p i hi
  have hequiv := probeIrrelevant_iff_specIrrelevant p hi
  rw [hchar]
  unfold guessLetter
  by_cases hp : probeIrrelevant width p i
  · rw [if_pos hp]
    exact ⟨⟨fun _ => hequiv.mp hp, fun _ => rfl⟩,
      ⟨fun h => absurd h (by simp), fun h => absurd (hequiv.mp hp) h⟩⟩
  · rw [if_neg hp]
    have hnot : ¬ specIrrelevant width p i := fun hr => hp (hequiv.mpr hr)
    exact ⟨⟨fun h => absurd h (by simp), fun hr => absurd hr hnot⟩,
      ⟨fun _ => hnot, fun _ => rfl⟩⟩

/-- C1 witness: at width 2 with p the upper bit of the encoding, bit 0 is
tagged irrelevant and the ground-truth characterization is exercised. -/
theorem C1_witness :
    ((((SensitivityList.init 2).guess fun v => (v : Int) / 2).slist[0]? = some 'x' ↔
      specIrrelevant 2 (fun v => (v : Int) / 2) 0) ∧
    ((((SensitivityList.init 2).guess fun v => (v : Int) / 2).slist[0]? = some '!' ↔
      ¬ specIrrelevant 2 (fun v => (v : Int) / 2) 0))) :=
  C1_guess_matches_ground_truth 2 (fun v => (v : Int) / 2) 0 (by decide)

theorem count_resolved {l : List Char} (h : ∀ c ∈ l, c = 'x' ∨ c = '!') :
    l.count '!' + l.count 'x' = l.length := by
  induction l with
  | nil => rfl
  | cons a l ih =>
    have ha : a = 'x' ∨ a = '!' := h a (List.mem_cons_self a l)
    have hrest := ih (fun c hc => h c (List.mem_cons_of_mem a hc))
    rcases ha with rfl | rfl <;> simp [List.count_cons] <;> omega

/-- C7: entropy is the count of relevant tags, isInsensitive holds exactly when
the entropy is zero, and for a fully resolved tag list the entropy also equals
the width minus the count of irrelevant tags. -/
theorem C7_entropy_characterization (sl : SensitivityList)
    (h : ∀ c ∈ sl.slist, c = 'x' ∨ c = '!') :
    sl.entropy = sl.slist.count '!' ∧
    (sl.isInsensitive = true ↔ sl.entropy = 0) ∧
    sl.entropy = sl.slist.length - sl.slist.count 'x' := by
  refine ⟨rfl, ?_, ?_⟩
  · unfold SensitivityList.isInsensitive
    exact ⟨fun hb => by simpa using hb, fun hz => by rw [hz]; rfl⟩
  · have := count_resolved h
    unfold SensitivityList.entropy
    omega

/-- C7 witness: the characterization at the concrete resolved list with one
relevant and one irrelevant tag. -/
theorem C7_witness :
    (SensitivityList.mk ['!', 'x']).entropy = (SensitivityList.mk ['!', 'x']).slist.count '!' ∧
    ((SensitivityList.mk ['!', 'x']).isInsensitive = true ↔
      (SensitivityList.mk ['!', 'x']).entropy = 0) ∧
    (SensitivityList.mk ['!', 'x']).entropy =
      (SensitivityList.mk ['!', 'x']).slist.length -
        (SensitivityList.mk ['!', 'x']).slist.count 'x' :=
  C7_entropy_characterization (SensitivityList.mk ['!', 'x']) (by decide)

theorem guess1F_origin (width : Nat) (p : Nat → Int) :
    ∀ (fuel : Nat) (l : List Char) (i : Nat) (c : Char),
      (guess1F width p l fuel)[i]? = some c →
        l[i]? = some c ∨ c = guessLetter width p i := by
  intro fuel
  induction fuel with
  | zero => intro l i c hc; exact Or.inl hc
  | succ fuel ih =>
    intro l i c hc
    rw [guess1F] at hc
    split at hc
    · exact Or.inl hc
    · next k hfind =>
      obtain ⟨hlen, hp, -⟩ := List.findIdx?_eq_some_iff_getElem.mp hfind
      rcases ih _ i c hc with hset | hgl
      · by_cases hik : i = k
        · subst hik
          rw [List.getElem?_set_self hlen] at hset
          injection hset with hset
          exact Or.inr hset.symm
        · rw [List.getElem?_set_ne (Ne.symm hik)] at hset
          exact Or.inl hset
      · exact Or.inr hgl

/-- C8: the resolution loop guess1 only writes positions tagged unknown and
writes each of them once: a tag already set to relevant or irrelevant is
returned unchanged, no unknown tag survives the loop, the width is preserved,
and every returned tag is either relevant or irrelevant. -/
theorem C8_tags_write_once (width : Nat) (p : Nat → Int) (l : List Char)
    (hval : ∀ c ∈ l, c = 'x' ∨ c = '!' ∨ c = '?') :
    (∀ (i : Nat) (c : Char), l[i]? = some c → c ≠ '?' →
      (guess1 width p l)[i]? = some c) ∧
    '?' ∉ guess1 width p l ∧
    (guess1 width p l).length = l.length ∧
    (∀ (i : Nat) (c : Char), (guess1 width p l)[i]? = some c →
      c = 'x' ∨ c = '!') := by
  refine ⟨fun i c hi hc => guess1_preserves width p l i c hi hc,
    guess1_no_unknown width p l, guess1_length width p l, ?_⟩
  intro i c hc
  rcases guess1F_origin width p _ l i c hc with horig | hgl
  · rcases hval c (List.getElem?_mem horig) with h | h | h
    · exact Or.inl h
    · exact Or.inr h
    · subst h
      exact absurd (List.getElem?_mem hc) (guess1_no_unknown width p l)
  · subst hgl
    unfold guessLetter
    split
    · exact Or.inl rfl
    · exact Or.inr rfl

/-- C8 witness: the write-once property at a concrete partially resolved list
over the identity table of width 2. -/
theorem C8_witness :
    (∀ (i : Nat) (c : Char), (['x', '?'] : List Char)[i]? = some c → c ≠ '?' →
      (guess1 2 (fun v => (v : Int)) ['x', '?'])[i]? = some c) ∧
    '?' ∉ guess1 2 (fun v => (v : Int)) ['x', '?'] ∧
    (guess1 2 (fun v => (v : Int)) ['x', '?']).length = (['x', '?'] : List Char).length ∧
    (∀ (i : Nat) (c : Char), (guess1 2 (fun v => (v : Int)) ['x', '?'])[i]? = some c →
      c = 'x' ∨ c = '!') :=
  C8_tags_write_once 2 (fun v => (v : Int)) ['x', '?'] (by decide)

/-- An element of a field spec: either a literal fixed bit-string or a count
of free bits. asFieldSpec in senslist.py emits the integer 1 (one variable
bit) for a significant tag and the one-character string of a zero bit for an
irrelevant tag. -/
inductive FieldSpecElement where
  | var (n : Nat)
  | lit (s : List Bool)
deriving DecidableEq

/-- slLetter_to_FieldSpecElement from senslist.py; the unknown tag is a
runtime error, embedded as none. -/
def slLetter_to_FieldSpecElement (letter : Char) : Option FieldSpecElement :=
  if letter = '!' then some (FieldSpecElement.var 1)
  else if letter = 'x' then some (FieldSpecElement.lit [false])
  else none

/-- The letter-by-letter conversion underlying asFieldSpec, over a tag list
in its stored (least significant first) order. -/
def asFieldSpecList : List Char → Option (List FieldSpecElement)
  | [] => some []
  | c :: rest =>
    match slLetter_to_FieldSpecElement c, asFieldSpecList rest with
    | some e, some tail => some (e :: tail)
    | _, _ => none

/-- asFieldSpec from senslist.py: convert every tag and reverse, so the
resulting template runs from most significant bit to least. -/
def SensitivityList.asFieldSpec (sl : SensitivityList) : Option (List FieldSpecElement) :=
  (asFieldSpecList sl.slist).map List.reverse

/-- filterRelevantMembers from senslist.py: zip the reversed tag list with a
most-significant-first list and keep the entries at significant positions. -/
def SensitivityList.filterRelevantMembers (sl : SensitivityList) (aList : List Bool) :
    List Bool :=
  ((sl.slist.reverse.zip aList).filter (fun rel_bit => rel_bit.1 = '!')).map
    (fun a => a.2)

/-- significantSlice from senslist.py: the Bits value of the relevant
sub-sequence of a full encoding. -/
def SensitivityList.significantSlice (sl : SensitivityList) (bits : List Bool) :
    List Bool :=
  sl.filterRelevantMembers bits

/-- All bit lists of the given length, in enumeration order (zero bit first). -/
def allBitLists : Nat → List (List Bool)
  | 0 => [[]]
  | n + 1 => [false, true].flatMap (fun b => (allBitLists n).map (b :: ·))

/-- Modelled from the spec: bit_iter.encodingspec_to_iter, the external Bit
Enumerator, is not part of this repository's sources. Per the spec it takes a
field spec (a sequence of elements, each a literal fixed bit-string or a count
of free bits) and produces every concrete encoding covering all combinations
of the free positions with the fixed positions held constant. -/
def encodingspec_to_iter : List FieldSpecElement → List (List Bool)
  | [] => [[]]
  | FieldSpecElement.lit s :: rest => (encodingspec_to_iter rest).map (fun t => s ++ t)
  | FieldSpecElement.var n :: rest =>
    (allBitLists n).flatMap (fun h => (encodingspec_to_iter rest).map (fun t => h ++ t))

theorem allBitLists_length (n : Nat) : (allBitLists n).length = 2 ^ n := by
  induction n with
  | zero => rfl
  | succ n ih =>
    simp [allBitLists, ih, pow_succ]
    omega

theorem allBitLists_mem (n : Nat) (bs : List Bool) :
    bs ∈ allBitLists n ↔ bs.length = n := by
  induction n generalizing bs with
  | zero => cases bs <;> simp [allBitLists]
  | succ n ih =>
    cases bs with
    | nil => simp [allBitLists]
    | cons b t =>
      simp only [allBitLists, List.mem_flatMap, List.mem_map, List.mem_cons,
        List.length_cons]
      constructor
      · rintro ⟨b2, -, t2, ht2, heq⟩
        obtain ⟨rfl, rfl⟩ := List.cons_eq_cons.mp heq
        rw [(ih t2).mp ht2]
      · intro hlen
        have hn : t.length = n := by omega
        exact ⟨b, by cases b <;> simp, t, (ih t).mpr hn, rfl⟩

theorem allBitLists_nodup (n : Nat) : (allBitLists n).Nodup := by
  induction n with
  | zero => simp [allBitLists]
  | succ n ih =>
    have hsplit : allBitLists (n + 1) =
        (allBitLists n).map (false :: ·) ++ (allBitLists n).map (true :: ·) := by
      simp [allBitLists]
    rw [hsplit, List.nodup_append]
    refine ⟨ih.map (fun a b hab => by injection hab),
      ih.map (fun a b hab => by injection hab), ?_⟩
    intro x hx hy
    obtain ⟨a, -, rfl⟩ := List.mem_map.mp hx
    obtain ⟨b, -, hb⟩ := List.mem_map.mp hy
    injection hb with hb
    exact Bool.false_ne_true hb.symm

theorem asFieldSpecList_append (l1 l2 : List Char) :
    asFieldSpecList (l1 ++ l2) =
      match asFieldSpecList l1, asFieldSpecList l2 with
      | some a, some b => some (a ++ b)
      | _, _ => none := by
  induction l1 with
  | nil =>
    cases h2 : asFieldSpecList l2 <;> simp [asFieldSpecList, h2]
  | cons c l1 ih =>
    rw [List.cons_append, asFieldSpecList, ih, asFieldSpecList]
    cases slLetter_to_FieldSpecElement c <;> cases asFieldSpecList l1 <;>
      cases asFieldSpecList l2 <;> rfl

theorem asFieldSpecList_reverse (l : List Char) :
    asFieldSpecList l.reverse = (asFieldSpecList l).map List.reverse := by
  induction l with
  | nil => rfl
  | cons c l ih =>
    rw [List.reverse_cons, asFieldSpecList_append, ih,
      show asFieldSpecList (c :: l) =
        match slLetter_to_FieldSpecElement c, asFieldSpecList l with
        | some e, some tail => some (e :: tail)
        | _, _ => none from rfl]
    cases hc : slLetter_to_FieldSpecElement c <;> cases hl : asFieldSpecList l <;>
      simp [asFieldSpecList, hc, hl]

theorem enum_slice_spec (r : List Char) (h : ∀ c ∈ r, c = '!' ∨ c = 'x') :
    ∃ fs, asFieldSpecList r = some fs ∧
      (encodingspec_to_iter fs).map
        (fun bits => ((r.zip bits).filter (fun rb => rb.1 = '!')).map (fun a => a.2)) =
        allBitLists (r.count '!') ∧
      ∀ bits ∈ encodingspec_to_iter fs, bits.length = r.length := by
  induction r with
  | nil =>
    refine ⟨[], rfl, by simp [encodingspec_to_iter, allBitLists], ?_⟩
    intro bits hb
    simp [encodingspec_to_iter] at hb
    simp [hb]
  | cons c r ih =>
    obtain ⟨fs, hfs, hmap, hlen⟩ := ih (fun d hd => h d (List.mem_cons_of_mem c hd))
    rcases h c (List.mem_cons_self c r) with rfl | rfl
    · refine ⟨FieldSpecElement.var 1 :: fs, ?_, ?_, ?_⟩
      · rw [asFieldSpecList, hfs]
        rfl
      · have henum : encodingspec_to_iter (FieldSpecElement.var 1 :: fs) =
            (encodingspec_to_iter fs).map (false :: ·) ++
              (encodingspec_to_iter fs).map (true :: ·) := by
          simp [encodingspec_to_iter, allBitLists]
        have hall : allBitLists ((('!' : Char) :: r).count '!') =
            (allBitLists (r.count '!')).map (false :: ·) ++
              (allBitLists (r.count '!')).map (true :: ·) := by
          rw [List.count_cons]
          simp [allBitLists]
        rw [henum, hall, List.map_append, List.map_map, List.map_map]
        congr 1
        · rw [← hmap, List.map_map]
          apply List.map_congr_left
          intro bits _
          simp [List.zip_cons_cons, List.filter_cons]
        · rw [← hmap, List.map_map]
          apply List.map_congr_left
          intro bits _
          simp [List.zip_cons_cons, List.filter_cons]
      · intro bits hb
        have henum : encodingspec_to_iter (FieldSpecElement.var 1 :: fs) =
            (encodingspec_to_iter fs).map (false :: ·) ++
              (encodingspec_to_iter fs).map (true :: ·) := by
          simp [encodingspec_to_iter, allBitLists]
        rw [henum, List.mem_append] at hb
        rcases hb with hb | hb <;>
          obtain ⟨t, ht, rfl⟩ := List.mem_map.mp hb <;>
          simp [hlen t ht]
    · refine ⟨FieldSpecElement.lit [false] :: fs, ?_, ?_, ?_⟩
      · rw [asFieldSpecList, hfs]
        rfl
      · have henum : encodingspec_to_iter (FieldSpecElement.lit [false] :: fs) =
            (encodingspec_to_iter fs).map (false :: ·) := by
          simp [encodingspec_to_iter]
        have hcount : ((('x' : Char) :: r).count '!') = r.count '!' := by
          rw [List.count_cons]
          simp
        rw [henum, hcount, List.map_map, ← hmap]
        apply List.map_congr_left
        intro bits _
        simp [List.zip_cons_cons, List.filter_cons]
      · intro bits hb
        have henum : encodingspec_to_iter (FieldSpecElement.lit [false] :: fs) =
            (encodingspec_to_iter fs).map (false :: ·) := by
          simp [encodingspec_to_iter]
        rw [henum] at hb
        obtain ⟨t, ht, rfl⟩ := List.mem_map.mp hb
        simp [hlen t ht]

/-- C9: for a fully resolved SensitivityList of width W with entropy e,
enumerating the field spec produced by asFieldSpec yields exactly 2 ^ e
distinct W-bit encodings, and significantSlice maps them bijectively onto the
set of all e-bit patterns. -/
theorem C9_field_spec_roundtrip (sl : SensitivityList)
    (h : ∀ c ∈ sl.slist, c = '!' ∨ c = 'x') :
    ∃ fs, sl.asFieldSpec = some fs ∧
      (encodingspec_to_iter fs).length = 2 ^ sl.entropy ∧
      (encodingspec_to_iter fs).Nodup ∧
      (∀ bits ∈ encodingspec_to_iter fs, bits.length = sl.slist.length) ∧
      (encodingspec_to_iter fs).map sl.significantSlice = allBitLists sl.entropy ∧
      (allBitLists sl.entropy).Nodup ∧
      (∀ bs : List Bool, bs ∈ allBitLists sl.entropy ↔ bs.length = sl.entropy) := by
  obtain ⟨fs, hfs, hmap, hlen⟩ := enum_slice_spec sl.slist.reverse
    (fun c hc => h c (List.mem_reverse.mp hc))
  have hcount : sl.slist.reverse.count '!' = sl.entropy := List.count_reverse _ _
  have hafs : sl.asFieldSpec = some fs := by
    unfold SensitivityList.asFieldSpec
    rw [← asFieldSpecList_reverse, hfs]
  have hmap2 : (encodingspec_to_iter fs).map sl.significantSlice =
      allBitLists sl.entropy := by
    rw [← hcount]
    exact hmap
  refine ⟨fs, hafs, ?_, ?_, ?_, hmap2, allBitLists_nodup _,
    fun bs => allBitLists_mem _ bs⟩
  · have hl := congrArg List.length hmap2
    rw [List.length_map, allBitLists_length] at hl
    exact hl
  · have hnd : ((encodingspec_to_iter fs).map sl.significantSlice).Nodup := by
      rw [hmap2]
      exact allBitLists_nodup _
    exact hnd.of_map
  · intro bits hb
    have := hlen bits hb
    rwa [List.length_reverse] at this

/-- C9 witness: the round trip at the concrete resolved list with one
relevant and one irrelevant tag (entropy 1, width 2). -/
theorem C9_witness :
    ∃ fs, (SensitivityList.mk ['!', 'x']).asFieldSpec = some fs ∧
      (encodingspec_to_iter fs).length = 2 ^ (SensitivityList.mk ['!', 'x']).entropy ∧
      (encodingspec_to_iter fs).Nodup ∧
      (∀ bits ∈ encodingspec_to_iter fs,
        bits.length = (SensitivityList.mk ['!', 'x']).slist.length) ∧
      (encodingspec_to_iter fs).map (SensitivityList.mk ['!', 'x']).significantSlice =
        allBitLists (SensitivityList.mk ['!', 'x']).entropy ∧
      (allBitLists (SensitivityList.mk ['!', 'x']).entropy).Nodup ∧
      (∀ bs : List Bool, bs ∈ allBitLists (SensitivityList.mk ['!', 'x']).entropy ↔
        bs.length = (SensitivityList.mk ['!', 'x']).entropy) :=
  C9_field_spec_roundtrip (SensitivityList.mk ['!', 'x']) (by decide)

/-! Embedding of vexshape.py. -/

/-- mingle from vexshape.py, on most-significant-first bit lists: after
checking that the two sources jointly have exactly as many bits as the mask,
walk the mask from its most significant position; a true mask bit consumes
the next most significant bit of the right source and a false mask bit one of
the left source. The count-of-bits exception (and the failing Extract on an
exhausted source) is embedded as none. -/
def mingle : List Bool → List Bool → List Bool → Option (List Bool)
  | leftBV, rightBV, [] =>
    if leftBV.length + rightBV.length ≠ 0 then none else some []
  | leftBV, rightBV, true :: newMask =>
    if leftBV.length + rightBV.length ≠ newMask.length + 1 then none
    else
      match rightBV with
      | [] => none
      | leftmost :: rest => (mingle leftBV rest newMask).map (leftmost :: ·)
  | leftBV, rightBV, false :: newMask =>
    if leftBV.length + rightBV.length ≠ newMask.length + 1 then none
    else
      match leftBV with
      | [] => none
      | leftmost :: rest => (mingle rest rightBV newMask).map (leftmost :: ·)

theorem count_false_add_count_true (l : List Bool) :
    l.count false + l.count true = l.length := by
  induction l with
  | nil => rfl
  | cons b t ih => cases b <;> simp [List.count_cons] <;> omega

/-- When the left source has one bit per false mask position and the right
source one bit per true mask position, mingle succeeds and produces one bit
per mask position. -/
theorem mingle_total (mask : List Bool) :
    ∀ (l r : List Bool), l.length = mask.count false → r.length = mask.count true →
      ∃ pat, mingle l r mask = some pat ∧ pat.length = mask.length := by
  induction mask with
  | nil =>
    intro l r hl hr
    simp only [List.count_nil] at hl hr
    refine ⟨[], ?_, rfl⟩
    rw [mingle, if_neg (by omega)]
  | cons m ms ih =>
    intro l r hl hr
    have hsum := count_false_add_count_true ms
    cases m with
    | true =>
      simp [List.count_cons] at hl hr
      cases r with
      | nil => simp at hr
      | cons b rest =>
        simp only [List.length_cons] at hr
        obtain ⟨pat, hpat, hplen⟩ := ih l rest (by simpa using hl) (by omega)
        refine ⟨b :: pat, ?_, by simp [hplen]⟩
        rw [mingle, if_neg (by simp at hl ⊢; omega)]
        simp [hpat]
    | false =>
      simp [List.count_cons] at hl hr
      cases l with
      | nil => simp at hl
      | cons b rest =>
        simp only [List.length_cons] at hl
        obtain ⟨pat, hpat, hplen⟩ := ih rest r (by omega) (by simpa using hr)
        refine ⟨b :: pat, ?_, by simp [hplen]⟩
        rw [mingle, if_neg (by simp at hr ⊢; omega)]
        simp [hpat]

/-- OperandProjection from vexshape.py: a read-only view of the operand table
OPS restricted to one operand slot of one shape. -/
structure OperandProjection where
  OPS : Nat → Nat → Int
  SHAPES : Nat → Int
  correctShape : Int
  opIndex : Nat

/-- OperandProjection.__getitem__ from vexshape.py: the slot value when the
encoding has the correct shape, and the integer -1 otherwise. -/
def OperandProjection.getItem (pr : OperandProjection) (k : Nat) : Int :=
  if pr.SHAPES k ≠ pr.correctShape then -1 else pr.OPS k pr.opIndex

/-- C10: the projection returns the stored operand exactly on encodings of the
target shape and the fixed marker -1 elsewhere; consequently an in-shape
operand whose genuine value is -1 is indistinguishable from the marker of an
out-of-shape encoding. -/
theorem C10_projection_sentinel (pr : OperandProjection) (k k2 : Nat)
    (h1 : pr.SHAPES k = pr.correctShape)
    (h2 : pr.SHAPES k2 ≠ pr.correctShape)
    (hval : pr.OPS k pr.opIndex = -1) :
    (∀ j, pr.getItem j =
      if pr.SHAPES j ≠ pr.correctShape then -1 else pr.OPS j pr.opIndex) ∧
    pr.getItem k = -1 ∧
    pr.getItem k2 = -1 ∧
    pr.getItem k = pr.getItem k2 := by
  have hk : pr.getItem k = -1 := by
    unfold OperandProjection.getItem
    rw [if_neg (by simpa using h1), hval]
  have hk2 : pr.getItem k2 = -1 := by
    unfold OperandProjection.getItem
    rw [if_pos h2]
  exact ⟨fun j => rfl, hk, hk2, by rw [hk, hk2]⟩

/-- C10 witness: a concrete projection where the in-shape operand value -1
collides with the out-of-shape marker. -/
theorem C10_witness :
    (∀ j, (OperandProjection.mk (fun _ _ => -1) (fun k => if k = 0 then 0 else 1) 0 0).getItem j =
      if (if j = 0 then (0 : Int) else 1) ≠ 0 then -1 else -1) ∧
    (OperandProjection.mk (fun _ _ => -1) (fun k => if k = 0 then 0 else 1) 0 0).getItem 0 = -1 ∧
    (OperandProjection.mk (fun _ _ => -1) (fun k => if k = 0 then 0 else 1) 0 0).getItem 1 = -1 ∧
    (OperandProjection.mk (fun _ _ => -1) (fun k => if k = 0 then 0 else 1) 0 0).getItem 0 =
      (OperandProjection.mk (fun _ _ => -1) (fun k => if k = 0 then 0 else 1) 0 0).getItem 1 :=
  C10_projection_sentinel
    (OperandProjection.mk (fun _ _ => -1) (fun k => if k = 0 then 0 else 1) 0 0)
    0 1 (by decide) (by decide) (by decide)

/-- A finite function interpretation as Z3 model extraction exposes one: a
list of explicitly named (point, value) entries plus a default else-value.
num_entries of the source is the length of the entry list. -/
structure FuncInterp where
  entries : List (Nat × Bool)
  elseValue : Bool
deriving DecidableEq

/-- The boolean function denoted by a finite interpretation. -/
def FuncInterp.eval (fi : FuncInterp) (x : Nat) : Bool :=
  match fi.entries.find? (fun e => e.1 = x) with
  | some e => e.2
  | none => fi.elseValue

/-- A model of the flock query of factorize_flock: interpretations for the
uninterpreted functions sh, t, s and f, with s exposed as an explicit finite
interpretation so that its named entries can be counted. -/
structure FlockModel where
  sh : Nat → Nat → Int
  t : Nat → Int
  s : FuncInterp
  f : Int → Bool → Int

/-- The ground shape fact for the concrete pair (iy, ix): interleave the
left-group value iy with the right-group value ix through the flocking mask
and look the resulting pattern up in the shape catalog shapeTags; none when
mingle fails. -/
def groundTag (shapeTags : List Bool → Int) (flocking : List Bool) (iy ix : Nat) :
    Option Int :=
  (mingle (natToBits (flocking.count false) iy) (natToBits (flocking.count true) ix)
    flocking).map shapeTags

/-- The constraint set of the flock query, as satisfied by a model: the
universally quantified composition law sh(l, r) = f(t(l), s(r)) over all
lBits-bit and rBits-bit values, and the ground shape facts asserted for every
concrete pair (the second disjunct covers a pair whose interleaving fails, for
which the source would have crashed before asserting anything). -/
def flockConstraints (lBits rBits : Nat) (gt : Nat → Nat → Option Int)
    (m : FlockModel) : Prop :=
  (∀ iy < 2 ^ lBits, ∀ ix < 2 ^ rBits,
    m.sh iy ix = m.f (m.t iy) (m.s.eval ix)) ∧
  (∀ iy < 2 ^ lBits, ∀ ix < 2 ^ rBits,
    gt iy ix = some (m.sh iy ix) ∨ gt iy ix = none)

/-- factorize_flock from vexshape.py, over an abstract SMT backend solve that
receives the widths of the two groups and the ground shape facts and returns
a model when the query is satisfiable: a non-sat verdict rejects the
candidate, and a sat verdict is accepted exactly when the model
interpretation of s has exactly one explicitly named entry. -/
def factorize_flock
    (solve : Nat → Nat → (Nat → Nat → Option Int) → Option FlockModel)
    (shapeTags : List Bool → Int) (flocking : List Bool) : Option FuncInterp :=
  match solve (flocking.count false) (flocking.count true)
      (groundTag shapeTags flocking) with
  | none => none
  | some m => if m.s.entries.length ≠ 1 then none else some m.s

/-- C2: if factorize_flock accepts the candidate, then in the accepting model,
for every concrete pair of group values, f(t(l), s(r)) equals the true shape
obtained by interleaving through the mask and looking the pattern up in
shapeTags. The hypothesis is the solver contract: a returned model satisfies
the asserted constraints. -/
theorem C2_flock_soundness
    (solve : Nat → Nat → (Nat → Nat → Option Int) → Option FlockModel)
    (shapeTags : List Bool → Int) (flocking : List Bool) (cl : FuncInterp)
    (hsound : ∀ m, solve (flocking.count false) (flocking.count true)
        (groundTag shapeTags flocking) = some m →
      flockConstraints (flocking.count false) (flocking.count true)
        (groundTag shapeTags flocking) m)
    (hfac : factorize_flock solve shapeTags flocking = some cl) :
    ∃ m, solve (flocking.count false) (flocking.count true)
        (groundTag shapeTags flocking) = some m ∧ cl = m.s ∧
      ∀ iy < 2 ^ flocking.count false, ∀ ix < 2 ^ flocking.count true,
        ∃ pat, mingle (natToBits (flocking.count false) iy)
            (natToBits (flocking.count true) ix) flocking = some pat ∧
          m.f (m.t iy) (m.s.eval ix) = shapeTags pat := by
  unfold factorize_flock at hfac
  split at hfac
  · exact absurd hfac (by simp)
  · next m hsolve =>
    split at hfac
    · exact absurd hfac (by simp)
    · injection hfac with hfac
      obtain ⟨hcomp, hground⟩ := hsound m hsolve
      refine ⟨m, hsolve, hfac.symm, ?_⟩
      intro iy hiy ix hix
      obtain ⟨pat, hpat, -⟩ := mingle_total flocking
        (natToBits (flocking.count false) iy) (natToBits (flocking.count true) ix)
        (natToBits_length _ _) (natToBits_length _ _)
      refine ⟨pat, hpat, ?_⟩
      rcases hground iy hiy ix hix with hg | hg
      · have : groundTag shapeTags flocking iy ix = some (shapeTags pat) := by
          unfold groundTag
          rw [hpat]
          rfl
        rw [this] at hg
        injection hg with hg
        rw [← hcomp iy hiy ix hix, ← hg]
      · have : groundTag shapeTags flocking iy ix = some (shapeTags pat) := by
          unfold groundTag
          rw [hpat]
          rfl
        rw [this] at hg
        exact absurd hg (by simp)

/-- A trivial backend used to exercise the flock theorems: it always returns
the same model, whose classifier names the single entry mapping 0 to true. -/
def constFlockSolve : Nat → Nat → (Nat → Nat → Option Int) → Option FlockModel :=
  fun _ _ _ =>
    some (FlockModel.mk (fun _ _ => 0) (fun _ => 0) (FuncInterp.mk [(0, true)] false)
      (fun _ _ => 0))

/-- C2 witness: the soundness conclusion at the concrete mask with one left
and one right bit, a constant shape catalog, and the trivial backend. -/
theorem C2_witness :
    ∃ m, constFlockSolve ([true, false].count false) ([true, false].count true)
        (groundTag (fun _ => 0) [true, false]) = some m ∧
      FuncInterp.mk [(0, true)] false = m.s ∧
      ∀ iy < 2 ^ [true, false].count false, ∀ ix < 2 ^ [true, false].count true,
        ∃ pat, mingle (natToBits ([true, false].count false) iy)
            (natToBits ([true, false].count true) ix) [true, false] = some pat ∧
          m.f (m.t iy) (m.s.eval ix) = (fun _ => (0 : Int)) pat :=
  C2_flock_soundness constFlockSolve (fun _ => 0) [true, false]
    (FuncInterp.mk [(0, true)] false)
    (fun m hm => by
      injection hm with hm
      rw [← hm]
      exact ⟨by decide, by decide⟩)
    (by decide)

/-- C4: the candidate is rejected (none, so the caller continues with the
next mask) whenever the solver verdict is not sat, and whenever it is sat but
the model interpretation of s has a number of explicitly named entries
different from one; the classifier is returned exactly when the verdict is
sat and that interpretation has exactly one named entry. -/
theorem C4_classifier_acceptance
    (solve : Nat → Nat → (Nat → Nat → Option Int) → Option FlockModel)
    (shapeTags : List Bool → Int) (flocking : List Bool) :
    (solve (flocking.count false) (flocking.count true)
        (groundTag shapeTags flocking) = none →
      factorize_flock solve shapeTags flocking = none) ∧
    (∀ m, solve (flocking.count false) (flocking.count true)
        (groundTag shapeTags flocking) = some m → m.s.entries.length ≠ 1 →
      factorize_flock solve shapeTags flocking = none) ∧
    (∀ cl, factorize_flock solve shapeTags flocking = some cl ↔
      ∃ m, solve (flocking.count false) (flocking.count true)
          (groundTag shapeTags flocking) = some m ∧
        m.s.entries.length = 1 ∧ cl = m.s) := by
  refine ⟨?_, ?_, ?_⟩
  · intro h
    unfold factorize_flock
    rw [h]
  · intro m hm hlen
    unfold factorize_flock
    rw [hm]
    simp [hlen]
  · intro cl
    unfold factorize_flock
    constructor
    · intro h
      split at h
      · exact absurd h (by simp)
      · next m hsolve =>
        split at h
        · exact absurd h (by simp)
        · next hlen =>
          injection h with h
          exact ⟨m, hsolve, by omega, h.symm⟩
    · rintro ⟨m, hm, hlen, rfl⟩
      rw [hm]
      simp [hlen]

/-- A backend used to exercise the rejection path: its model names two
entries in the classifier interpretation. -/
def twoEntryFlockSolve : Nat → Nat → (Nat → Nat → Option Int) → Option FlockModel :=
  fun _ _ _ =>
    some (FlockModel.mk (fun _ _ => 0) (fun _ => 0)
      (FuncInterp.mk [(0, true), (1, false)] false) (fun _ _ => 0))

/-- C4 witness: the acceptance characterization at a concrete mask and the
two-entry backend (whose candidate is rejected as degenerate). -/
theorem C4_witness :
    (twoEntryFlockSolve ([true, false].count false) ([true, false].count true)
        (groundTag (fun _ => 0) [true, false]) = none →
      factorize_flock twoEntryFlockSolve (fun _ => 0) [true, false] = none) ∧
    (∀ m, twoEntryFlockSolve ([true, false].count false) ([true, false].count true)
        (groundTag (fun _ => 0) [true, false]) = some m → m.s.entries.length ≠ 1 →
      factorize_flock twoEntryFlockSolve (fun _ => 0) [true, false] = none) ∧
    (∀ cl, factorize_flock twoEntryFlockSolve (fun _ => 0) [true, false] = some cl ↔
      ∃ m, twoEntryFlockSolve ([true, false].count false) ([true, false].count true)
          (groundTag (fun _ => 0) [true, false]) = some m ∧
        m.s.entries.length = 1 ∧ cl = m.s) :=
  C4_classifier_acceptance twoEntryFlockSolve (fun _ => 0) [true, false]

/-- The candidate list of find_flockings from vexshape.py: every mask of
length entropy whose uint lies in [1, 2 ^ entropy - 2], sorted ascending by
population count of the right-group (true) bits. -/
def candidates (e : Nat) : List (List Bool) :=
  ((List.range' 1 (2 ^ e - 2)).map (natToBits e)).mergeSort
    (fun a b => a.count true ≤ b.count true)

/-- find_flockings from vexshape.py: try the candidates in order and yield
every (flocking, classifier) pair that factorize_flock accepts. -/
def find_flockings (solve : Nat → Nat → (Nat → Nat → Option Int) → Option FlockModel)
    (shapeTags : List Bool → Int) (e : Nat) : List (List Bool × FuncInterp) :=
  (candidates e).filterMap (fun flocking =>
    (factorize_flock solve shapeTags flocking).map (fun f => (flocking, f)))

theorem natToBits_all_false {w n : Nat} (h : ∀ i < w, n.testBit i = false) :
    natToBits w n = List.replicate w false := by
  induction w with
  | zero => rfl
  | succ w ih =>
    rw [natToBits, h w (Nat.lt_succ_self w), List.replicate_succ,
      ih (fun i hi => h i (Nat.lt_succ_of_lt hi))]

theorem natToBits_all_true {w n : Nat} (h : ∀ i < w, n.testBit i = true) :
    natToBits w n = List.replicate w true := by
  induction w with
  | zero => rfl
  | succ w ih =>
    rw [natToBits, h w (Nat.lt_succ_self w), List.replicate_succ,
      ih (fun i hi => h i (Nat.lt_succ_of_lt hi))]

theorem bitsToNat_replicate_false (e : Nat) :
    bitsToNat (List.replicate e false) = 0 := by
  have h := bitsToNat_natToBits e 0
  rw [natToBits_all_false (fun i _ => Nat.zero_testBit i)] at h
  simpa using h

theorem bitsToNat_replicate_true (e : Nat) :
    bitsToNat (List.replicate e true) = 2 ^ e - 1 := by
  have h := bitsToNat_natToBits e (2 ^ e - 1)
  rw [natToBits_all_true (fun i hi => by simp [Nat.testBit_two_pow_sub_one, hi])] at h
  rw [h, Nat.mod_eq_of_lt]
  have := Nat.two_pow_pos e
  omega

theorem candidates_mem (e : Nat) (m : List Bool) :
    m ∈ candidates e ↔
      (m.length = e ∧ m ≠ List.replicate e false ∧ m ≠ List.replicate e true) := by
  unfold candidates
  rw [List.mem_mergeSort, List.mem_map]
  constructor
  · rintro ⟨k, hk, rfl⟩
    rw [List.mem_range'] at hk
    obtain ⟨i, hi, rfl⟩ := hk
    have hpos := Nat.two_pow_pos e
    have hklt : 1 + 1 * i < 2 ^ e := by omega
    refine ⟨natToBits_length e _, ?_, ?_⟩
    · intro hrep
      have h0 := congrArg bitsToNat hrep
      rw [bitsToNat_natToBits, Nat.mod_eq_of_lt hklt, bitsToNat_replicate_false] at h0
      omega
    · intro hrep
      have h1 := congrArg bitsToNat hrep
      rw [bitsToNat_natToBits, Nat.mod_eq_of_lt hklt, bitsToNat_replicate_true] at h1
      omega
  · rintro ⟨hlen, hne0, hne1⟩
    have hrt : natToBits e (bitsToNat m) = m := by
      rw [← hlen]
      exact natToBits_bitsToNat m
    have hlt : bitsToNat m < 2 ^ e := by
      rw [← hlen]
      exact bitsToNat_lt m
    have h0 : bitsToNat m ≠ 0 := by
      intro h
      exact hne0 (by rw [← hrt, h, natToBits_all_false (fun i _ => Nat.zero_testBit i)])
    have h1 : bitsToNat m ≠ 2 ^ e - 1 := by
      intro h
      exact hne1 (by
        rw [← hrt, h,
          natToBits_all_true (fun i hi => by simp [Nat.testBit_two_pow_sub_one, hi])])
    refine ⟨bitsToNat m, ?_, hrt⟩
    rw [List.mem_range']
    exact ⟨bitsToNat m - 1, by omega, by omega⟩

theorem candidates_nodup (e : Nat) : (candidates e).Nodup := by
  unfold candidates
  apply ((List.mergeSort_perm _ _).symm).nodup
  apply List.Nodup.map_on
  · intro x hx y hy hxy
    rw [List.mem_range'] at hx hy
    obtain ⟨i, hi, rfl⟩ := hx
    obtain ⟨j, hj, rfl⟩ := hy
    have hpos := Nat.two_pow_pos e
    have hb := congrArg bitsToNat hxy
    rw [bitsToNat_natToBits, bitsToNat_natToBits,
      Nat.mod_eq_of_lt (by omega), Nat.mod_eq_of_lt (by omega)] at hb
    omega
  · exact List.nodup_range' 1 (2 ^ e - 2)

theorem count_one_of_nodup {α : Type} [BEq α] [LawfulBEq α] {l : List α} {a : α}
    (hn : l.Nodup) (ha : a ∈ l) : l.count a = 1 := by
  induction l with
  | nil => simp at ha
  | cons b t ih =>
    rw [List.count_cons]
    rcases List.mem_cons.mp ha with rfl | hat
    · have hnot : a ∉ t := (List.nodup_cons.mp hn).1
      rw [List.count_eq_zero.mpr hnot]
      simp
    · have hba : (b == a) = false := by
        have hne : b ≠ a := fun h => (List.nodup_cons.mp hn).1 (h ▸ hat)
        simpa using hne
      rw [ih (List.nodup_cons.mp hn).2 hat, hba]
      simp

theorem candidates_sorted (e : Nat) :
    (candidates e).Pairwise (fun a b => a.count true ≤ b.count true) := by
  have h := @List.sorted_mergeSort (List Bool)
    (fun a b => decide (a.count true ≤ b.count true))
    (fun a b c hab hbc => by
      rw [decide_eq_true_iff] at hab hbc ⊢
      omega)
    (fun a b => by
      rcases Nat.le_total (a.count true) (b.count true) with h | h <;> simp [h])
    ((List.range' 1 (2 ^ e - 2)).map (natToBits e))
  exact h.imp (fun hb => of_decide_eq_true hb)

/-- C3: find_flockings tries every boolean mask of length entropy except the
all-zero and the all-one masks, each exactly once, in ascending order of
population count, so every weight-k candidate is attempted before any
heavier candidate. -/
theorem C3_candidate_enumeration (e : Nat) :
    (∀ m : List Bool, m ∈ candidates e ↔
      (m.length = e ∧ m ≠ List.replicate e false ∧ m ≠ List.replicate e true)) ∧
    (∀ m : List Bool, m ∈ candidates e → (candidates e).count m = 1) ∧
    (candidates e).Pairwise (fun a b => a.count true ≤ b.count true) ∧
    (∀ solve shapeTags, find_flockings solve shapeTags e =
      (candidates e).filterMap (fun flocking =>
        (factorize_flock solve shapeTags flocking).map (fun f => (flocking, f)))) :=
  ⟨candidates_mem e,
   fun _ hm => count_one_of_nodup (candidates_nodup e) hm,
   candidates_sorted e,
   fun _ _ => rfl⟩

/-- C3 witness: the enumeration properties at entropy 3 (six candidates). -/
theorem C3_witness :
    (∀ m : List Bool, m ∈ candidates 3 ↔
      (m.length = 3 ∧ m ≠ List.replicate 3 false ∧ m ≠ List.replicate 3 true)) ∧
    (∀ m : List Bool, m ∈ candidates 3 → (candidates 3).count m = 1) ∧
    (candidates 3).Pairwise (fun a b => a.count true ≤ b.count true) ∧
    (∀ solve shapeTags, find_flockings solve shapeTags 3 =
      (candidates 3).filterMap (fun flocking =>
        (factorize_flock solve shapeTags flocking).map (fun f => (flocking, f)))) :=
  C3_candidate_enumeration 3

/-- Modelled from the spec: SensitivityList.fiber, called by formulaFor, is
not among this repository's sources (senslist.py defines no fiber method).
Per the spec it searches the fiber of a compressed point: the full encodings
whose significant slice, read as an unsigned integer, equals that point,
in ascending encoding order. -/
def fiber (sl : SensitivityList) (fullWidth : Nat) (i : Nat) : List Nat :=
  (List.range (2 ^ fullWidth)).filter
    (fun j => bitsToNat (sl.significantSlice (natToBits fullWidth j)) = i)

/-- The (x, y) pairs recorded by the formulaFor loop: for each compressed
point x, the projected operand value of the first encoding of the target
shape in the fiber of x, when the fiber contains one. -/
def recordedPairs (proj : OperandProjection) (P : Nat → Int) (shapeN : Int)
    (fullWidth : Nat) (opSensitivity : SensitivityList) : List (Nat × Int) :=
  (List.range (2 ^ opSensitivity.entropy)).filterMap (fun i =>
    (((fiber opSensitivity fullWidth i).filter (fun j => P j = shapeN)).head?).map
      (fun s => (i, proj.getItem s)))

/-- The affine law asserted by the formulaFor query: a·x + b = y for every
recorded pair, in exact integer arithmetic. -/
def affineFits (pairs : List (Nat × Int)) (a b : Int) : Prop :=
  ∀ q ∈ pairs, a * q.1 + b = q.2

/-- The affine-fit candidate forced by the recorded pairs: fitted through the
first pair and the first later pair with a different x (slope 0 when no two
distinct x values occur). -/
def affineCand : List (Nat × Int) → Int × Int
  | [] => (0, 0)
  | (x0, y0) :: rest =>
    match rest.find? (fun q => q.1 ≠ x0) with
    | none => (0, y0)
    | some (x1, y1) =>
      let a := (y1 - y0) / ((x1 : Int) - (x0 : Int))
      (a, y0 - a * x0)

/-- Modelled from the spec: the SMT backend's answer to the affine-fit query
of formulaFor. Z3 receives the ground facts Y[x] = y for every recorded pair
together with the law ForAll x, Y[x] = a·x + b, and is sat exactly when
integers a, b fitting every pair exist; the embedding computes the forced
candidate and checks it against every pair. -/
def z3affine (pairs : List (Nat × Int)) : Option (Int × Int) :=
  if pairs.all (fun q => (affineCand pairs).1 * q.1 + (affineCand pairs).2 == q.2) then
    some (affineCand pairs)
  else none

theorem z3affine_sound (pairs : List (Nat × Int)) (a b : Int)
    (h : z3affine pairs = some (a, b)) : affineFits pairs a b := by
  unfold z3affine at h
  split at h
  · next hall =>
    injection h with h
    rw [List.all_eq_true] at hall
    intro q hq
    have hcheck := hall q hq
    rw [beq_iff_eq] at hcheck
    rw [h] at hcheck
    exact hcheck
  · exact absurd h (by simp)

theorem z3affine_none_of_no_fit (pairs : List (Nat × Int))
    (h : ¬ ∃ a b : Int, affineFits pairs a b) : z3affine pairs = none := by
  cases hz : z3affine pairs with
  | none => rfl
  | some ab =>
    exact absurd ⟨ab.1, ab.2, z3affine_sound pairs ab.1 ab.2 (by rw [hz])⟩ h

/-- formulaFor from vexshape.py, over an abstract affine-fit backend
checkAffine. The projection view is built from the operand table, the oracle
table, the target shape and the operand slot; the operand-specific
sensitivity is computed by running guess over the projection (the source
passes two extra arguments to guess that its definition does not accept;
following the spec, the analyzer runs over the projection). An insensitive
operand short-circuits to a constant formula read off the specimen encoding
of the shape (whose uint is taken as an argument here); otherwise a non-sat
verdict of the affine query raises, embedded as Except.error. -/
def formulaFor (checkAffine : List (Nat × Int) → Option (Int × Int))
    (OPS : Nat → Nat → Int) (P : Nat → Int) (opNum : Nat) (shapeN : Int)
    (fullWidth : Nat) (specimenUint : Nat) : Except Unit (List Char × Int × Int) :=
  if ((SensitivityList.init fullWidth).guess
      (fun i => (OperandProjection.mk OPS P shapeN opNum).getItem i)).isInsensitive then
    Except.ok (((SensitivityList.init fullWidth).guess
      (fun i => (OperandProjection.mk OPS P shapeN opNum).getItem i)).slist, 0,
      (OperandProjection.mk OPS P shapeN opNum).getItem specimenUint)
  else
    match checkAffine (recordedPairs (OperandProjection.mk OPS P shapeN opNum) P shapeN
        fullWidth ((SensitivityList.init fullWidth).guess
          (fun i => (OperandProjection.mk OPS P shapeN opNum).getItem i))) with
    | none => Except.error ()
    | some (a, b) => Except.ok (((SensitivityList.init fullWidth).guess
        (fun i => (OperandProjection.mk OPS P shapeN opNum).getItem i)).slist, a, b)

/-- Restricting a spec-level irrelevance fact to a smaller width. -/
theorem specIrrelevant_mono {w : Nat} {p : Nat → Int} {i : Nat}
    (h : specIrrelevant (w + 1) p i) : specIrrelevant w p i := by
  intro v1 h1 v2 h2 hag
  have hlt : 2 ^ w < 2 ^ (w + 1) := Nat.pow_lt_pow_right (by norm_num) (Nat.lt_succ_self w)
  exact h v1 (by omega) v2 (by omega) hag

/-- A table all of whose bits are irrelevant is constant on its domain. -/
theorem constant_of_spec_irrelevant {w : Nat} {p : Nat → Int}
    (h : ∀ i < w, specIrrelevant w p i) :
    ∀ v1 < 2 ^ w, ∀ v2 < 2 ^ w, p v1 = p v2 := by
  induction w with
  | zero =>
    intro v1 h1 v2 h2
    have : v1 = 0 := by simpa using h1
    have : v2 = 0 := by simpa using h2
    simp_all
  | succ w ih =>
    intro v1 h1 v2 h2
    have hred : ∀ v, v < 2 ^ (w + 1) → p v = p (v % 2 ^ w) := by
      intro v hv
      apply h w (Nat.lt_succ_self w) v hv (v % 2 ^ w)
      · calc v % 2 ^ w < 2 ^ w := Nat.mod_lt _ (Nat.two_pow_pos w)
          _ < 2 ^ (w + 1) := Nat.pow_lt_pow_right (by norm_num) (Nat.lt_succ_self w)
      · intro j hj
        rcases Nat.lt_or_ge j w with hjw | hjw
        · simp [Nat.testBit_mod_two_pow, hjw]
        · have hnot : ¬ j < w := by omega
          have hv2j : v < 2 ^ j := by
            calc v < 2 ^ (w + 1) := hv
              _ ≤ 2 ^ j := Nat.pow_le_pow_right (by norm_num) (by omega)
          rw [Nat.testBit_lt_two_pow hv2j, Nat.testBit_mod_two_pow]
          simp [hnot]
    have hrestrict : ∀ i < w, specIrrelevant w p i :=
      fun i hi => specIrrelevant_mono (h i (by omega))
    calc p v1 = p (v1 % 2 ^ w) := hred v1 h1
      _ = p (v2 % 2 ^ w) :=
        ih hrestrict _ (Nat.mod_lt _ (Nat.two_pow_pos w)) _ (Nat.mod_lt _ (Nat.two_pow_pos w))
      _ = p v2 := (hred v2 h2).symm

/-- When guess reports an insensitive list, the probed table is constant. -/
theorem guess_insensitive_constant (fullWidth : Nat) (p : Nat → Int)
    (hins : ((SensitivityList.init fullWidth).guess p).isInsensitive = true) :
    ∀ v1 < 2 ^ fullWidth, ∀ v2 < 2 ^ fullWidth, p v1 = p v2 := by
  apply constant_of_spec_irrelevant
  intro i hi
  apply (probeIrrelevant_iff_specIrrelevant p hi).mp
  by_contra hprobe
  have hletter : guessLetter fullWidth p i = '!' := by
    unfold guessLetter
    rw [if_neg (by simpa using hprobe)]
  have hchar := guess_char fullWidth p i hi
  rw [hletter] at hchar
  have hmem : '!' ∈ ((SensitivityList.init fullWidth).guess p).slist :=
    List.getElem?_mem hchar
  have hcount := List.count_pos_iff.mpr hmem
  unfold SensitivityList.isInsensitive SensitivityList.entropy at hins
  rw [Nat.beq_eq_true_eq] at hins
  omega

/-- C6: if formulaFor returns a formula (description, a, b), then every
(x, y) pair it recorded — x a combination of the operand's significant bits
read as an unsigned integer, y the operand value of a representative
encoding of the target shape in the fiber of x — satisfies a·x + b = y
exactly, in integer arithmetic. The hypothesis on checkAffine is the solver
contract: a returned model satisfies the asserted ground facts. -/
theorem C6_affine_fit_exactness
    (checkAffine : List (Nat × Int) → Option (Int × Int))
    (OPS : Nat → Nat → Int) (P : Nat → Int) (opNum : Nat) (shapeN : Int)
    (fullWidth : Nat) (specimenUint : Nat)
    (hspec : specimenUint < 2 ^ fullWidth)
    (hsound : ∀ pairs a b, checkAffine pairs = some (a, b) → affineFits pairs a b)
    (d : List Char) (a b : Int)
    (h : formulaFor checkAffine OPS P opNum shapeN fullWidth specimenUint =
      Except.ok (d, a, b)) :
    affineFits (recordedPairs (OperandProjection.mk OPS P shapeN opNum) P shapeN
      fullWidth ((SensitivityList.init fullWidth).guess
        (fun i => (OperandProjection.mk OPS P shapeN opNum).getItem i))) a b := by
  unfold formulaFor at h
  split at h
  · next hins =>
    injection h with h
    rw [Prod.mk.injEq, Prod.mk.injEq] at h
    obtain ⟨-, ha, hb⟩ := h
    intro q hq
    unfold recordedPairs at hq
    rw [List.mem_filterMap] at hq
    obtain ⟨i, -, hmap⟩ := hq
    cases hh : ((fiber ((SensitivityList.init fullWidth).guess
        (fun i => (OperandProjection.mk OPS P shapeN opNum).getItem i)) fullWidth i).filter
        (fun j => P j = shapeN)).head? with
    | none => rw [hh] at hmap; exact absurd hmap (by simp)
    | some s =>
      rw [hh] at hmap
      injection hmap with hmap
      have hcons := List.eq_cons_of_mem_head? (by rw [hh]; rfl)
      have hs1 : s ∈ (fiber ((SensitivityList.init fullWidth).guess
          (fun i => (OperandProjection.mk OPS P shapeN opNum).getItem i)) fullWidth i).filter
          (fun j => P j = shapeN) := by
        rw [hcons]
        exact List.mem_cons_self _ _
      have hs2 := List.mem_of_mem_filter hs1
      unfold fiber at hs2
      have hs3 := List.mem_of_mem_filter hs2
      have hslt : s < 2 ^ fullWidth := List.mem_range.mp hs3
      have hconst := guess_insensitive_constant fullWidth
        (fun i => (OperandProjection.mk OPS P shapeN opNum).getItem i) hins
      rw [← hmap, ← ha, ← hb]
      simp only [zero_mul, zero_add]
      exact hconst specimenUint hspec s hslt
  · next hins =>
    split at h
    · exact absurd h (by simp)
    · next a2 b2 heq =>
      injection h with h
      rw [Prod.mk.injEq, Prod.mk.injEq] at h
      obtain ⟨-, ha, hb⟩ := h
      apply hsound _ a b
      rw [← ha, ← hb]
      exact heq

/-- C6 witness: at width 1 with the operand equal to the encoding, the fit
returned through z3affine is a = 1, b = 0 and matches both recorded pairs. -/
theorem C6_witness :
    affineFits (recordedPairs
      (OperandProjection.mk (fun k _ => (k : Int)) (fun _ => 0) 0 0) (fun _ => 0) 0
      1 ((SensitivityList.init 1).guess
        (fun i => (OperandProjection.mk (fun k _ => (k : Int)) (fun _ => 0) 0 0).getItem i)))
      1 0 :=
  C6_affine_fit_exactness z3affine (fun k _ => (k : Int)) (fun _ => 0) 0 0 1 0
    (by decide) z3affine_sound ['!'] 1 0 (by rfl)

/-- C5 counterexample: at a concrete width-2 oracle whose operand (1 exactly
at encoding 3) is not affine in its significant bits, the affine-fit query is
unsatisfiable and formulaFor raises — the embedded Except.error — instead of
returning a "no formula found" value to the caller. -/
theorem C5_counterexample :
    formulaFor z3affine (fun k _ => if k = 3 then 1 else 0) (fun _ => 0) 0 0 2 0 =
      Except.error () := by
  rfl

/-- C5 amended: when the affine-fit query in formulaFor is unsatisfiable and
the operand is not insensitive, formulaFor raises an exception (the source
raises the undefined name Error), embedded as Except.error; the failure
propagates as an exception, not as a "no formula found" result, and aborts
the analysis unless a caller outside this repository catches it. The
hypothesis on checkAffine is the solver contract in the unsat direction. -/
theorem C5_affine_unsat_raises
    (checkAffine : List (Nat × Int) → Option (Int × Int))
    (OPS : Nat → Nat → Int) (P : Nat → Int) (opNum : Nat) (shapeN : Int)
    (fullWidth : Nat) (specimenUint : Nat)
    (hcomplete : ∀ pairs, (¬ ∃ a b : Int, affineFits pairs a b) →
      checkAffine pairs = none)
    (hins : ((SensitivityList.init fullWidth).guess
      (fun i => (OperandProjection.mk OPS P shapeN opNum).getItem i)).isInsensitive
        = false)
    (hnofit : ¬ ∃ a b : Int, affineFits (recordedPairs
      (OperandProjection.mk OPS P shapeN opNum) P shapeN fullWidth
      ((SensitivityList.init fullWidth).guess
        (fun i => (OperandProjection.mk OPS P shapeN opNum).getItem i))) a b) :
    formulaFor checkAffine OPS P opNum shapeN fullWidth specimenUint =
      Except.error () := by
  unfold formulaFor
  rw [hins, hcomplete _ hnofit]
  simp

/-- C5 witness: the amended behaviour at the concrete width-2 oracle whose
operand is the square of the encoding: no affine fit exists for the recorded
pairs and formulaFor raises. -/
theorem C5_witness :
    formulaFor z3affine (fun k _ => ((k : Int) * (k : Int))) (fun _ => 0) 0 0 2 0 =
      Except.error () :=
  C5_affine_unsat_raises z3affine (fun k _ => ((k : Int) * (k : Int)))
    (fun _ => 0) 0 0 2 0
    (fun pairs h => z3affine_none_of_no_fit pairs h)
    (by decide)
    (by
      rintro ⟨a, b, hfit⟩
      have h0 := hfit (0, 0) (by decide)
      have h1 := hfit (1, 1) (by decide)
      have h2 := hfit (2, 4) (by decide)
      simp at h0 h1 h2
      omega)

end Thinshell
